import Mathlib

/-!
Shallow embedding of the `bevy_terminal_emu` crate, covering the subsystems
referenced by the verification claims:

* the effect-region selector (`src/effects/mod.rs`),
* the collapse one-shot effect (`src/effects/collapse.rs`),
* the per-tick base-transform reset (`src/effects/mod.rs`),
* the glyph-atlas index assignment, incremental expansion, and rebuild
  (`src/atlas.rs`),
* the color translation layer (`src/color.rs`),
* the buffer-to-entity diff-sync pass (`src/sync.rs`).

Floating-point (`f32`) quantities are modelled as rationals, machine integers
(`u16`, `usize`, `u64`) as naturals.  Bevy ECS queries are modelled as explicit
lists of per-cell records, and `HashMap` / `HashSet` as association lists and
duplicate-free lists (all key sets handled here are duplicate-free, so insert
order is immaterial).  Component mutations guarded by compare-before-write are
made observable as an explicit list of emitted mutation signals, mirroring
Bevy's change-detection triggers.
-/

namespace BevyTermEmu

/-- Model of `GridRect` (src/effects/mod.rs): a rectangle in grid coordinates.
Fields are `u16` in the source, modelled as naturals. -/
structure GridRect where
  col : ℕ
  row : ℕ
  width : ℕ
  height : ℕ
deriving DecidableEq, Repr

/-- Model of `GridRect::contains` (src/effects/mod.rs lines 25-30). -/
def GridRect.containsCell (r : GridRect) (col row : ℕ) : Bool :=
  decide (r.col ≤ col) && decide (col < r.col + r.width) &&
    decide (r.row ≤ row) && decide (row < r.row + r.height)

/-- Model of `EffectRegion` (src/effects/mod.rs): include/exclude rectangle
sets; an empty include set targets all cells, excludes take priority. -/
structure EffectRegion where
  includeRects : List GridRect
  excludeRects : List GridRect
deriving DecidableEq, Repr

/-- Model of `EffectRegion::contains` (src/effects/mod.rs lines 45-66):
excludes are checked first, then an empty include list means "everything",
otherwise membership in some include rectangle. -/
def EffectRegion.containsCell (r : EffectRegion) (col row : ℕ) : Bool :=
  if r.excludeRects.any (fun rect => rect.containsCell col row) then
    false
  else if r.includeRects.isEmpty then
    true
  else
    r.includeRects.any (fun rect => rect.containsCell col row)

/-- Model of `EffectRegion::all` (src/effects/mod.rs): empty include and
exclude lists, targeting every cell. -/
def EffectRegion.allCells : EffectRegion :=
  ⟨[], []⟩

/-- Model of the `Collapse` component (src/effects/collapse.rs lines 8-19):
gravity, accumulated elapsed time, total duration, per-row stagger delay, and
the one-shot active flag.  `f32` fields are modelled as rationals. -/
structure CollapseState where
  gravity : ℚ
  elapsed : ℚ
  duration : ℚ
  staggerPerRow : ℚ
  active : Bool
deriving DecidableEq, Repr

/-- Model of `Collapse::default` (src/effects/collapse.rs lines 22-30). -/
def CollapseState.default : CollapseState :=
  ⟨800, 0, 3, 1/20, true⟩

/-- A terminal cell as seen by the collapse system: its grid position and the
`y` component of its working `Transform` translation (the only field the
collapse system touches). -/
structure FallCell where
  col : ℕ
  row : ℕ
  y : ℚ
deriving DecidableEq, Repr

/-- Displacement applied by the collapse effect to a row at a given elapsed
time (src/effects/collapse.rs lines 56-60): `t = max(elapsed - row*stagger, 0)`
then `fall = 0.5 * gravity * t * t`. -/
def collapseFall (gravity staggerPerRow elapsed : ℚ) (row : ℕ) : ℚ :=
  let t := max (elapsed - (row : ℚ) * staggerPerRow) 0
  1/2 * gravity * t * t

/-- One iteration of the per-effect loop of `collapse_system`
(src/effects/collapse.rs lines 39-64) for a single `Collapse` instance:
inactive instances are skipped; otherwise elapsed accumulates the tick delta;
if elapsed passes the duration the instance deactivates and applies nothing;
otherwise every in-region cell's `translation.y` is decreased by the
kinematic fall for its row. -/
def collapseTick (c : CollapseState) (dt : ℚ) (region : EffectRegion)
    (cells : List FallCell) : CollapseState × List FallCell :=
  if !c.active then
    (c, cells)
  else
    let e := c.elapsed + dt
    if e > c.duration then
      ({ c with elapsed := e, active := false }, cells)
    else
      ({ c with elapsed := e },
       cells.map fun cell =>
         if region.containsCell cell.col cell.row then
           { cell with y := cell.y - collapseFall c.gravity c.staggerPerRow e cell.row }
         else
           cell)

/-- Multi-tick run of the collapse effect.  Each tick starts from `base`
(modelling `reset_transforms`, which restores every cell's working transform
to its base pose before effects run) and records the post-effect cell list;
the instance state threads through the ticks.  The instance is carried through
every tick and never removed. -/
def collapseRun (c : CollapseState) (region : EffectRegion)
    (base : List FallCell) : List ℚ → List (List FallCell)
  | [] => []
  | dt :: rest =>
    let step := collapseTick c dt region base
    step.2 :: collapseRun step.1 region base rest

/-- Model of `ascii_chars` (src/atlas.rs lines 45-47): the printable ASCII
characters `0x20..=0x7E`. -/
def asciiChars : List Char :=
  (List.range 95).map fun i => Char.ofNat (32 + i)

/-- Model of the glyph-index insertion loop of `build_atlas_data_for_chars`
(src/atlas.rs lines 90-91): `glyph_map.insert(ch, i)` for the `i`-th character
of the requested list, with indices counted from `start`.  The `HashMap` is
modelled as an association list; every list this is applied to in the crate is
duplicate-free, so insertion order is immaterial. -/
def buildGlyphMapFrom (start : ℕ) : List Char → List (Char × ℕ)
  | [] => []
  | c :: cs => (c, start) :: buildGlyphMapFrom (start + 1) cs

/-- Glyph map produced by `build_atlas_data_for_chars` for a character list:
each character maps to its position in the list. -/
def buildGlyphMap (chars : List Char) : List (Char × ℕ) :=
  buildGlyphMapFrom 0 chars

/-- Lookup of a character's tile index in a glyph map
(`glyph_map.get(&ch)`). -/
def lookupGlyph (glyphMap : List (Char × ℕ)) (c : Char) : Option ℕ :=
  glyphMap.lookup c

/-- Model of `all_chars.sort()` (src/atlas.rs lines 232 and 288): a stable
comparison sort on characters. -/
def sortChars (l : List Char) : List Char :=
  l.insertionSort (· ≤ ·)

/-- Model of `all_chars.sort(); all_chars.dedup()` (src/atlas.rs lines
232-233): sort, then remove consecutive duplicates. -/
def sortDedupChars (l : List Char) : List Char :=
  (sortChars l).destutter (· ≠ ·)

/-- The glyph-map part of the atlas state used by `expand_font_atlas`:
the current character-to-tile map and the runtime-discovered pending set
(`FontAtlasResource.glyph_map` / `pending_glyphs`, src/atlas.rs lines 18
and 26).  The `HashSet` of pending glyphs is modelled as a duplicate-free
list. -/
structure AtlasModel where
  glyphMap : List (Char × ℕ)
  pendingGlyphs : List Char
deriving DecidableEq, Repr

/-- Model of `expand_font_atlas` (src/atlas.rs lines 195-259), restricted to
its glyph-map effect.  `renderable` models the external font query
`font.outline_glyph(..).is_some()` (src/atlas.rs lines 216-223), which depends
only on the font data and the character.  The pending set is drained, filtered
to renderable characters, merged with the existing keys, sorted and deduped,
and the whole glyph map is rebuilt from the merged list. -/
def expand_font_atlas (renderable : Char → Bool) (a : AtlasModel) : AtlasModel :=
  if a.pendingGlyphs.isEmpty then
    a
  else
    let newChars := a.pendingGlyphs.filter renderable
    if newChars.isEmpty then
      { a with pendingGlyphs := [] }
    else
      let allChars := sortDedupChars (a.glyphMap.map Prod.fst ++ newChars)
      { glyphMap := buildGlyphMap allChars, pendingGlyphs := [] }

/-- Model of the glyph-map effect of `rebuild_font_atlas` (src/atlas.rs lines
287-296): collect the current keys, sort them, and rebuild the map from the
sorted list.  The `HashMap` key iteration order is arbitrary, so callers
quantify over permutations of the key list. -/
def rebuildGlyphMap (keys : List Char) : List (Char × ℕ) :=
  buildGlyphMap (sortChars keys)

/-- Model of `Vec3` as used by cell transforms: three rational components. -/
structure V3 where
  x : ℚ
  y : ℚ
  z : ℚ
deriving DecidableEq, Repr

/-- Model of `Quat` (rotation quaternion): four rational components. -/
structure Q4 where
  qx : ℚ
  qy : ℚ
  qz : ℚ
  qw : ℚ
deriving DecidableEq, Repr

/-- Model of a pose: translation, rotation, and scale, the three fields copied
by `reset_transforms`.  Used for both `BaseTransform` (src/grid.rs lines
53-58) and the working `Transform`. -/
structure Pose where
  translation : V3
  rotation : Q4
  scale : V3
deriving DecidableEq, Repr

/-- A terminal cell as seen by `reset_transforms`: its stored `BaseTransform`
and its working `Transform`. -/
structure PoseCell where
  base : Pose
  transform : Pose
deriving DecidableEq, Repr

/-- Model of `reset_transforms` (src/effects/mod.rs lines 92-100): for every
terminal cell, copy the stored base translation, rotation, and scale into the
working transform. -/
def reset_transforms (cells : List PoseCell) : List PoseCell :=
  cells.map fun c =>
    { c with transform := ⟨c.base.translation, c.base.rotation, c.base.scale⟩ }

/-- Model of Bevy's `Color` as used by the crate: linear components plus
alpha, as rationals. -/
structure Color where
  r : ℚ
  g : ℚ
  b : ℚ
  a : ℚ
deriving DecidableEq, Repr

/-- Model of `Color::srgb`: the three channels with alpha 1. -/
def Color.srgb (r g b : ℚ) : Color :=
  ⟨r, g, b, 1⟩

/-- Model of `Color::WHITE`. -/
def Color.white : Color :=
  Color.srgb 1 1 1

/-- Model of Bevy's `Color::with_alpha`, which replaces the alpha component
with the given value. -/
def Color.withAlpha (c : Color) (alpha : ℚ) : Color :=
  { c with a := alpha }

/-- Model of `ratatui::style::Color`: named palette colors, a reset sentinel,
literal RGB, and 8-bit indexed colors. -/
inductive RatColor where
  | reset
  | black
  | red
  | green
  | yellow
  | blue
  | magenta
  | cyan
  | gray
  | darkGray
  | lightRed
  | lightGreen
  | lightYellow
  | lightBlue
  | lightMagenta
  | lightCyan
  | white
  | rgb (r g b : Fin 256)
  | indexed (i : Fin 256)
deriving DecidableEq, Repr

/-- Model of `indexed_color` (src/color.rs lines 30-67): the standard 16
colors, the 216-color cube for indices 16..=231, and the grayscale ramp for
232..=255. -/
def indexed_color (index : Fin 256) : Color :=
  match index.val with
  | 0 => Color.srgb 0 0 0
  | 1 => Color.srgb (4/5) 0 0
  | 2 => Color.srgb 0 (4/5) 0
  | 3 => Color.srgb (4/5) (4/5) 0
  | 4 => Color.srgb 0 0 (4/5)
  | 5 => Color.srgb (4/5) 0 (4/5)
  | 6 => Color.srgb 0 (4/5) (4/5)
  | 7 => Color.srgb (3/4) (3/4) (3/4)
  | 8 => Color.srgb (1/2) (1/2) (1/2)
  | 9 => Color.srgb 1 (33/100) (33/100)
  | 10 => Color.srgb (33/100) 1 (33/100)
  | 11 => Color.srgb 1 1 (33/100)
  | 12 => Color.srgb (33/100) (33/100) 1
  | 13 => Color.srgb 1 (33/100) 1
  | 14 => Color.srgb (33/100) 1 1
  | 15 => Color.srgb 1 1 1
  | n =>
    if n ≤ 231 then
      let m := n - 16
      let bq := m % 6
      let gq := (m / 6) % 6
      let rq := m / 36
      Color.srgb
        (if rq = 0 then 0 else ((55 + 40 * rq : ℕ) : ℚ) / 255)
        (if gq = 0 then 0 else ((55 + 40 * gq : ℕ) : ℚ) / 255)
        (if bq = 0 then 0 else ((55 + 40 * bq : ℕ) : ℚ) / 255)
    else
      let v := ((8 + 10 * (n - 232) : ℕ) : ℚ) / 255
      Color.srgb v v v

/-- Model of `ratatui_color_to_bevy` (src/color.rs lines 5-27). -/
def ratatui_color_to_bevy (color : RatColor) : Color :=
  match color with
  | .reset => Color.white
  | .black => Color.srgb 0 0 0
  | .red => Color.srgb (4/5) 0 0
  | .green => Color.srgb 0 (4/5) 0
  | .yellow => Color.srgb (4/5) (4/5) 0
  | .blue => Color.srgb 0 0 (4/5)
  | .magenta => Color.srgb (4/5) 0 (4/5)
  | .cyan => Color.srgb 0 (4/5) (4/5)
  | .gray => Color.srgb (3/4) (3/4) (3/4)
  | .darkGray => Color.srgb (1/2) (1/2) (1/2)
  | .lightRed => Color.srgb 1 (33/100) (33/100)
  | .lightGreen => Color.srgb (33/100) 1 (33/100)
  | .lightYellow => Color.srgb 1 1 (33/100)
  | .lightBlue => Color.srgb (33/100) (33/100) 1
  | .lightMagenta => Color.srgb 1 (33/100) 1
  | .lightCyan => Color.srgb (33/100) 1 1
  | .white => Color.srgb 1 1 1
  | .rgb r g b =>
    Color.srgb (((r : ℕ) : ℚ) / 255) (((g : ℕ) : ℚ) / 255) (((b : ℕ) : ℚ) / 255)
  | .indexed i => indexed_color i

/-- Model of `ratatui_fg_to_bevy` (src/color.rs lines 70-76): `Reset` maps to
the caller-supplied default, everything else through the color table. -/
def ratatui_fg_to_bevy (color : RatColor) (default : Color) : Color :=
  if color = RatColor.reset then default else ratatui_color_to_bevy color

/-- Model of `ratatui_bg_to_bevy` (src/color.rs lines 79-85): `Reset` maps to
the caller-supplied default, everything else through the color table. -/
def ratatui_bg_to_bevy (color : RatColor) (default : Color) : Color :=
  if color = RatColor.reset then default else ratatui_color_to_bevy color

/-- Model of the four `ratatui::style::Modifier` bit-flags read by the sync
pass (`BOLD`, `ITALIC`, `UNDERLINED`, `DIM`); `modifier.contains(F)` becomes
the corresponding field. -/
structure StyleModifier where
  bold : Bool
  italic : Bool
  underlined : Bool
  dim : Bool
deriving DecidableEq, Repr

/-- Model of a `ratatui::buffer::Cell` as read by the sync pass: symbol,
foreground and background color, and style modifier. -/
structure BufferCell where
  symbol : String
  fg : RatColor
  bg : RatColor
  modifier : StyleModifier
deriving DecidableEq, Repr

/-- Model of the `CellStyle` component (src/grid.rs lines 28-36). -/
structure CellStyle where
  fg : Color
  bg : Color
  bold : Bool
  italic : Bool
  underlined : Bool
  dim : Bool
  symbol : String
deriving DecidableEq, Repr

/-- Renderable state of one terminal cell as touched by the sync pass: the
parent entity's `CellStyle`, the background child sprite's color, and the
foreground child sprite's color and optional texture-atlas tile index
(`Sprite.texture_atlas.index`). -/
structure CellEnt where
  style : CellStyle
  bgColor : Color
  fgColor : Color
  textureAtlas : Option ℕ
deriving DecidableEq, Repr

/-- A mutation signal: one compare-guarded component write performed by the
sync pass, tagged with the cell-entity position it wrote.  Models a Bevy
change-detection trigger. -/
inductive CellWrite where
  | styleWrite (p : ℕ)
  | bgColorWrite (p : ℕ)
  | fgColorWrite (p : ℕ)
  | fgIndexWrite (p : ℕ)
deriving DecidableEq, Repr

/-- The cell-entity position a mutation signal wrote to. -/
def CellWrite.pos : CellWrite → ℕ
  | .styleWrite p => p
  | .bgColorWrite p => p
  | .fgColorWrite p => p
  | .fgIndexWrite p => p

/-- The configuration fields of `TerminalConfig` read by the sync pass. -/
structure SyncConfig where
  columns : ℕ
  rows : ℕ
  defaultFg : Color
  defaultBg : Color
deriving DecidableEq, Repr

/-- First character of a cell's symbol, defaulting to space: models
`symbol.chars().next().unwrap_or(' ')` (src/sync.rs line 114). -/
def headChar (s : String) : Char :=
  s.toList.head?.getD ' '

/-- The `CellStyle` value the sync pass resolves for a buffer cell
(src/sync.rs lines 62-69 and 85-91). -/
def resolveStyle (cfg : SyncConfig) (bcell : BufferCell) : CellStyle :=
  { fg := ratatui_fg_to_bevy bcell.fg cfg.defaultFg
    bg := ratatui_bg_to_bevy bcell.bg cfg.defaultBg
    bold := bcell.modifier.bold
    italic := bcell.modifier.italic
    underlined := bcell.modifier.underlined
    dim := bcell.modifier.dim
    symbol := bcell.symbol }

/-- The foreground sprite color the sync pass resolves for a buffer cell
(src/sync.rs line 97): the resolved foreground, with alpha replaced by 1/2
when the DIM modifier is set. -/
def resolveTargetFg (cfg : SyncConfig) (bcell : BufferCell) : Color :=
  let fg := ratatui_fg_to_bevy bcell.fg cfg.defaultFg
  if bcell.modifier.dim then fg.withAlpha (1/2) else fg

/-- The atlas tile index the sync pass resolves for a character (src/sync.rs
lines 115-123): the glyph-map entry, or the space tile for unknown
characters. -/
def resolveGlyphIndex (glyphMap : List (Char × ℕ)) (spaceIndex : ℕ) (ch : Char) : ℕ :=
  match lookupGlyph glyphMap ch with
  | some g => g
  | none => spaceIndex

/-- The texture-atlas index write of the sync pass (src/sync.rs lines
126-131): read the current index immutably, and only if it differs — and the
sprite actually has a texture atlas — write the new index. -/
def applyAtlasIndex (ent : CellEnt) (glyphIndex : ℕ) : CellEnt :=
  if ent.textureAtlas ≠ some glyphIndex then
    match ent.textureAtlas with
    | some _ => { ent with textureAtlas := some glyphIndex }
    | none => ent
  else ent

/-- The `CellStyle` write of the sync pass (src/sync.rs lines 76-93): written
only if at least one of the seven resolved fields differs, i.e. only if the
whole resolved style record differs. -/
def writeStyle (ns : CellStyle) (ent : CellEnt) : CellEnt :=
  if ent.style ≠ ns then { ent with style := ns } else ent

/-- The background-sprite color write of the sync pass (src/sync.rs lines
101-105), compare-guarded. -/
def writeBg (bg : Color) (ent : CellEnt) : CellEnt :=
  if ent.bgColor ≠ bg then { ent with bgColor := bg } else ent

/-- The foreground-sprite color write of the sync pass (src/sync.rs lines
109-111), compare-guarded. -/
def writeFg (fg : Color) (ent : CellEnt) : CellEnt :=
  if ent.fgColor ≠ fg then { ent with fgColor := fg } else ent

/-- Per-cell body of the sync loop (src/sync.rs lines 75-134) acting on one
cell entity at position `p`: compare-guarded writes of the `CellStyle`, the
background sprite color, the foreground sprite color, and the foreground
texture-atlas index, plus the list of newly discovered glyphs to queue.
Returns the updated entity, the mutation signals emitted (one per performed
write, in source order), and the queued characters. -/
def processEnt (cfg : SyncConfig) (glyphMap : List (Char × ℕ)) (spaceIndex p : ℕ)
    (bcell : BufferCell) (ent : CellEnt) : CellEnt × List CellWrite × List Char :=
  let newStyle := resolveStyle cfg bcell
  let ent1 := writeStyle newStyle ent
  let bg := ratatui_bg_to_bevy bcell.bg cfg.defaultBg
  let ent2 := writeBg bg ent1
  let targetFg := resolveTargetFg cfg bcell
  let ent3 := writeFg targetFg ent2
  let ch := headChar bcell.symbol
  let glyphIndex := resolveGlyphIndex glyphMap spaceIndex ch
  let pushed := if lookupGlyph glyphMap ch = none ∧ ch ≠ ' ' then [ch] else []
  let ent4 := applyAtlasIndex ent3 glyphIndex
  (ent4,
   (if ent.style ≠ newStyle then [CellWrite.styleWrite p] else []) ++
     (if ent1.bgColor ≠ bg then [CellWrite.bgColorWrite p] else []) ++
     (if ent2.fgColor ≠ targetFg then [CellWrite.fgColorWrite p] else []) ++
     (if ent3.textureAtlas ≠ some glyphIndex ∧ ent3.textureAtlas ≠ none then
       [CellWrite.fgIndexWrite p] else []),
   pushed)

/-- Accumulator threaded through the dirty-index loop of the sync pass: the
cell-entity list, the newly discovered glyphs, and the mutation signals
emitted so far. -/
structure PassState where
  cells : List CellEnt
  newGlyphs : List Char
  writes : List CellWrite
deriving DecidableEq, Repr

/-- One iteration of the dirty-index loop (src/sync.rs lines 54-135):
out-of-bounds indices are skipped; otherwise the grid position is derived from
the index, the entity is looked up through `CellEntityIndex::get` (which
returns `None` outside the grid, src/grid.rs lines 92-98), and the per-cell
body runs on it.  The entity list always has `columns * rows` entries in the
running system, so the inner lookup cannot miss; the model skips defensively
like the source's `let Some(..) else continue`. -/
def processDirty (cfg : SyncConfig) (buffer : List BufferCell)
    (glyphMap : List (Char × ℕ)) (spaceIndex : ℕ) (st : PassState) (idx : ℕ) : PassState :=
  match buffer[idx]? with
  | none => st
  | some bcell =>
    if idx % cfg.columns < cfg.columns ∧ idx / cfg.columns < cfg.rows then
      match st.cells[idx / cfg.columns * cfg.columns + idx % cfg.columns]? with
      | none => st
      | some ent =>
        { cells := st.cells.set (idx / cfg.columns * cfg.columns + idx % cfg.columns)
            (processEnt cfg glyphMap spaceIndex
              (idx / cfg.columns * cfg.columns + idx % cfg.columns) bcell ent).1
          newGlyphs := st.newGlyphs ++ (processEnt cfg glyphMap spaceIndex
            (idx / cfg.columns * cfg.columns + idx % cfg.columns) bcell ent).2.2
          writes := st.writes ++ (processEnt cfg glyphMap spaceIndex
            (idx / cfg.columns * cfg.columns + idx % cfg.columns) bcell ent).2.1 }
    else st

/-- The full sync-relevant world state: the backend buffer with its dirty
bitmap and generation counter (the dirty-tracking accessors `generation`,
`dirty_cells`, `clear_dirty` are declared on `BevyBackend` but their bodies
are not in the sources at hand; the bitmap+counter state follows the spec's
generation-counter and dirty-marker description), the `SyncGeneration`
resource, the glyph map and pending set of `FontAtlasResource`, and the cell
entities. -/
structure SyncWorld where
  generation : ℕ
  syncGen : ℕ
  dirty : List Bool
  buffer : List BufferCell
  glyphMap : List (Char × ℕ)
  pendingGlyphs : List Char
  cells : List CellEnt
deriving DecidableEq, Repr

/-- The filter-map step of the dirty-index collection (src/sync.rs line 44):
keep the index of a set dirty bit, drop a clear one. -/
def dirtyIndexSelector (d : ℕ × Bool) : Option ℕ :=
  if d.2 then some d.1 else none

/-- Dirty-index collection (src/sync.rs lines 39-45): indices of the set bits
of the dirty bitmap, via enumerate-and-filter. -/
def dirtyIndices (dirty : List Bool) : List ℕ :=
  dirty.enum.filterMap dirtyIndexSelector

/-- Model of `HashSet::extend` on the pending-glyph set, represented as a
duplicate-free list: insert each new element unless already present. -/
def hashSetExtend (pending : List Char) (newGlyphs : List Char) : List Char :=
  newGlyphs.foldl (fun acc c => if c ∈ acc then acc else acc ++ [c]) pending

/-- Model of `sync_buffer_to_entities` (src/sync.rs lines 17-141): skip when
the backend generation equals the last-synced generation; otherwise store the
generation, collect the dirty indices, clear the dirty bitmap, process every
dirty index through the per-cell loop, and queue any newly discovered glyphs
for atlas expansion.  Returns the updated world and the mutation signals
emitted. -/
def sync_buffer_to_entities (cfg : SyncConfig) (w : SyncWorld) :
    SyncWorld × List CellWrite :=
  if w.generation = w.syncGen then
    (w, [])
  else
    let idxs := dirtyIndices w.dirty
    let spaceIndex := (lookupGlyph w.glyphMap ' ').getD 0
    let st := idxs.foldl (processDirty cfg w.buffer w.glyphMap spaceIndex)
      ⟨w.cells, [], []⟩
    ({ w with
        syncGen := w.generation
        dirty := w.dirty.map fun _ => false
        cells := st.cells
        pendingGlyphs :=
          if st.newGlyphs.isEmpty then w.pendingGlyphs
          else hashSetExtend w.pendingGlyphs st.newGlyphs },
     st.writes)

/-- C4: `EffectRegion` membership semantics — any exclude rectangle containing
the cell forces `contains` false regardless of the include set; with no
exclusion hit, an empty include set yields true, and otherwise `contains` is
true exactly when some include rectangle contains the cell; concretely, for
include `[(0,0,10,10)]` and exclude `[(3,3,2,2)]`, `contains(3,3)` is false,
`contains(9,9)` is true, and `contains(10,10)` is false. -/
theorem effectRegion_containsCell_spec :
    (∀ (r : EffectRegion) (col row : ℕ),
        (∃ e ∈ r.excludeRects, e.containsCell col row = true) →
        r.containsCell col row = false) ∧
    (∀ (r : EffectRegion) (col row : ℕ),
        r.includeRects = [] →
        (∀ e ∈ r.excludeRects, e.containsCell col row = false) →
        r.containsCell col row = true) ∧
    (∀ (r : EffectRegion) (col row : ℕ),
        r.includeRects ≠ [] →
        (∀ e ∈ r.excludeRects, e.containsCell col row = false) →
        (r.containsCell col row = true ↔
          ∃ i ∈ r.includeRects, i.containsCell col row = true)) ∧
    (EffectRegion.containsCell ⟨[⟨0, 0, 10, 10⟩], [⟨3, 3, 2, 2⟩]⟩ 3 3 = false ∧
     EffectRegion.containsCell ⟨[⟨0, 0, 10, 10⟩], [⟨3, 3, 2, 2⟩]⟩ 9 9 = true ∧
     EffectRegion.containsCell ⟨[⟨0, 0, 10, 10⟩], [⟨3, 3, 2, 2⟩]⟩ 10 10 = false) := by
  refine ⟨?_, ?_, ?_, by decide, by decide, by decide⟩
  · intro r col row ⟨e, he, hc⟩
    have hx : r.excludeRects.any (fun rect => rect.containsCell col row) = true :=
      List.any_eq_true.mpr ⟨e, he, hc⟩
    simp [EffectRegion.containsCell, hx]
  · intro r col row hinc hexc
    have hx : r.excludeRects.any (fun rect => rect.containsCell col row) = false := by
      rw [List.any_eq_false]
      intro e he
      simp [hexc e he]
    simp [EffectRegion.containsCell, hx, hinc]
  · intro r col row hinc hexc
    have hx : r.excludeRects.any (fun rect => rect.containsCell col row) = false := by
      rw [List.any_eq_false]
      intro e he
      simp [hexc e he]
    have hne : r.includeRects.isEmpty = false := by
      cases h : r.includeRects with
      | nil => exact absurd h hinc
      | cons a l => simp
    simp [EffectRegion.containsCell, hx, hne, List.any_eq_true]

/-- Witness for `effectRegion_containsCell_spec`: the exclude-priority clause
at a concrete region and cell. -/
theorem effectRegion_containsCell_spec_witness :
    EffectRegion.containsCell ⟨[⟨0, 0, 10, 10⟩], [⟨3, 3, 2, 2⟩]⟩ 4 4 = false :=
  effectRegion_containsCell_spec.1 ⟨[⟨0, 0, 10, 10⟩], [⟨3, 3, 2, 2⟩]⟩ 4 4
    ⟨⟨3, 3, 2, 2⟩, by decide, by decide⟩

/-- C7: after `reset_transforms` runs, every terminal cell's working transform
equals its stored base pose exactly — translation, rotation, and scale all
equal the corresponding `BaseTransform` fields, undoing all prior-tick effect
deltas. -/
theorem reset_transforms_restores_base :
    ∀ (cells : List PoseCell) (c : PoseCell), c ∈ reset_transforms cells →
      c.transform.translation = c.base.translation ∧
      c.transform.rotation = c.base.rotation ∧
      c.transform.scale = c.base.scale := by
  intro cells c hc
  simp only [reset_transforms, List.mem_map] at hc
  obtain ⟨c0, _, rfl⟩ := hc
  exact ⟨rfl, rfl, rfl⟩

/-- Witness for `reset_transforms_restores_base` at a one-cell grid whose
working transform starts away from its base pose. -/
theorem reset_transforms_restores_base_witness :
    (PoseCell.mk ⟨⟨1, 2, 3⟩, ⟨0, 0, 0, 1⟩, ⟨1, 1, 1⟩⟩
        ⟨⟨1, 2, 3⟩, ⟨0, 0, 0, 1⟩, ⟨1, 1, 1⟩⟩).transform.translation =
      (PoseCell.mk ⟨⟨1, 2, 3⟩, ⟨0, 0, 0, 1⟩, ⟨1, 1, 1⟩⟩
        ⟨⟨1, 2, 3⟩, ⟨0, 0, 0, 1⟩, ⟨1, 1, 1⟩⟩).base.translation ∧
    (PoseCell.mk ⟨⟨1, 2, 3⟩, ⟨0, 0, 0, 1⟩, ⟨1, 1, 1⟩⟩
        ⟨⟨1, 2, 3⟩, ⟨0, 0, 0, 1⟩, ⟨1, 1, 1⟩⟩).transform.rotation =
      (PoseCell.mk ⟨⟨1, 2, 3⟩, ⟨0, 0, 0, 1⟩, ⟨1, 1, 1⟩⟩
        ⟨⟨1, 2, 3⟩, ⟨0, 0, 0, 1⟩, ⟨1, 1, 1⟩⟩).base.rotation ∧
    (PoseCell.mk ⟨⟨1, 2, 3⟩, ⟨0, 0, 0, 1⟩, ⟨1, 1, 1⟩⟩
        ⟨⟨1, 2, 3⟩, ⟨0, 0, 0, 1⟩, ⟨1, 1, 1⟩⟩).transform.scale =
      (PoseCell.mk ⟨⟨1, 2, 3⟩, ⟨0, 0, 0, 1⟩, ⟨1, 1, 1⟩⟩
        ⟨⟨1, 2, 3⟩, ⟨0, 0, 0, 1⟩, ⟨1, 1, 1⟩⟩).base.scale :=
  reset_transforms_restores_base
    [⟨⟨⟨1, 2, 3⟩, ⟨0, 0, 0, 1⟩, ⟨1, 1, 1⟩⟩, ⟨⟨9, 8, 7⟩, ⟨1, 0, 0, 0⟩, ⟨2, 2, 2⟩⟩⟩]
    _ (by decide)

/-- C2: while a collapse instance stays within its duration, every in-region
cell's downward displacement in a tick equals
`0.5 * gravity * max(elapsed - row * stagger, 0)^2` at the post-tick elapsed
time; concretely with gravity 800, stagger 0.05, duration 3, at elapsed 1.0
the fall is 100 px for row 10 and 0 for row 25 (whose row delay 1.25 exceeds
the elapsed time). -/
theorem collapse_displacement_formula :
    (∀ (c : CollapseState) (dt : ℚ) (region : EffectRegion) (cells : List FallCell),
        c.active = true → c.elapsed + dt ≤ c.duration →
        (collapseTick c dt region cells).2 =
          cells.map fun cell =>
            if region.containsCell cell.col cell.row then
              { cell with y := cell.y -
                  1/2 * c.gravity *
                    (max (c.elapsed + dt - (cell.row : ℚ) * c.staggerPerRow) 0) ^ 2 }
            else cell) ∧
    collapseFall 800 (1/20) 1 10 = 100 ∧
    collapseFall 800 (1/20) 1 25 = 0 ∧
    (collapseTick ⟨800, 19/20, 3, 1/20, true⟩ (1/20) EffectRegion.allCells
        [⟨0, 10, 0⟩, ⟨5, 25, 0⟩]).2 = [⟨0, 10, -100⟩, ⟨5, 25, 0⟩] := by
  refine ⟨?_, ?_, ?_, ?_⟩
  · intro c dt region cells hact hdur
    have hnot : ¬ c.elapsed + dt > c.duration := not_lt.mpr hdur
    simp only [collapseTick, hact, Bool.not_true, Bool.false_eq_true, if_false,
      if_neg hnot]
    congr 1
    funext cell
    by_cases hmem : region.containsCell cell.col cell.row = true
    · simp only [hmem, if_true]
      have : collapseFall c.gravity c.staggerPerRow (c.elapsed + dt) cell.row =
          1/2 * c.gravity *
            (max (c.elapsed + dt - (cell.row : ℚ) * c.staggerPerRow) 0) ^ 2 := by
        simp only [collapseFall]
        ring
      rw [this]
    · simp only [Bool.not_eq_true] at hmem
      simp only [hmem, Bool.false_eq_true, if_false]
  · show (1 : ℚ)/2 * 800 * max (1 - (10 : ℕ) * (1/20) : ℚ) 0 * max (1 - (10 : ℕ) * (1/20) : ℚ) 0 = 100
    norm_num
  · show (1 : ℚ)/2 * 800 * max (1 - (25 : ℕ) * (1/20) : ℚ) 0 * max (1 - (25 : ℕ) * (1/20) : ℚ) 0 = 0
    norm_num
  · norm_num [collapseTick, collapseFall, EffectRegion.allCells, EffectRegion.containsCell]

/-- Witness for `collapse_displacement_formula`: the general displacement
formula applied at a concrete collapse state, tick delta, and cell list. -/
theorem collapse_displacement_formula_witness :
    (collapseTick ⟨800, 19/20, 3, 1/20, true⟩ (1/20) EffectRegion.allCells
        [⟨0, 10, 0⟩]).2 =
      [⟨0, 10, 0 - 1/2 * 800 * (max ((19/20 : ℚ) + 1/20 - (10 : ℕ) * (1/20)) 0) ^ 2⟩] :=
  collapse_displacement_formula.1 ⟨800, 19/20, 3, 1/20, true⟩ (1/20)
    EffectRegion.allCells [⟨0, 10, 0⟩] rfl (by norm_num)

/-- C3: one-shot termination and re-trigger of the collapse effect — on the
first tick where accumulated elapsed exceeds the duration the instance
deactivates and applies no displacement; an inactive instance never changes
any cell (so no displacement is applied from that tick onward, and the
instance is carried along rather than removed); and resetting elapsed to 0 and
active to true replays exactly the run of a freshly created instance with the
same parameters over the same tick deltas. -/
theorem collapse_oneshot_termination :
    (∀ (c : CollapseState) (dt : ℚ) (region : EffectRegion) (cells : List FallCell),
        c.active = true → c.duration < c.elapsed + dt →
        collapseTick c dt region cells =
          ({ c with elapsed := c.elapsed + dt, active := false }, cells)) ∧
    (∀ (c : CollapseState) (dt : ℚ) (region : EffectRegion) (cells : List FallCell),
        c.active = false → collapseTick c dt region cells = (c, cells)) ∧
    (∀ (c : CollapseState) (region : EffectRegion) (base : List FallCell)
        (dts : List ℚ), c.active = false →
        collapseRun c region base dts = dts.map fun _ => base) ∧
    (∀ (c : CollapseState) (region : EffectRegion) (base : List FallCell)
        (dts : List ℚ),
        collapseRun { c with elapsed := 0, active := true } region base dts =
          collapseRun ⟨c.gravity, 0, c.duration, c.staggerPerRow, true⟩ region base dts) := by
  have hinactive : ∀ (c : CollapseState) (dt : ℚ) (region : EffectRegion)
      (cells : List FallCell), c.active = false →
      collapseTick c dt region cells = (c, cells) := by
    intro c dt region cells hact
    simp [collapseTick, hact]
  refine ⟨?_, hinactive, ?_, ?_⟩
  · intro c dt region cells hact hdur
    simp [collapseTick, hact, hdur]
  · intro c region base dts hact
    induction dts with
    | nil => rfl
    | cons dt rest ih =>
      simp only [collapseRun, hinactive c dt region base hact, List.map_cons]
      exact congrArg _ ih
  · intro c region base dts
    rfl

/-- Witness for `collapse_oneshot_termination`: the first tick past the
duration deactivates a concrete instance and leaves a concrete cell list
untouched. -/
theorem collapse_oneshot_termination_witness :
    collapseTick ⟨800, 14/5, 3, 1/20, true⟩ (3/10) EffectRegion.allCells
        [⟨0, 0, 42⟩] =
      ({ CollapseState.mk 800 (14/5) 3 (1/20) true with
          elapsed := 14/5 + 3/10, active := false }, [⟨0, 0, 42⟩]) :=
  collapse_oneshot_termination.1 ⟨800, 14/5, 3, 1/20, true⟩ (3/10)
    EffectRegion.allCells [⟨0, 0, 42⟩] rfl (by norm_num)

/-- Lookup in the glyph map built from a character list: each character maps
to `start` plus the position of its first occurrence. -/
theorem lookup_buildGlyphMapFrom (l : List Char) :
    ∀ (start : ℕ) (c : Char), c ∈ l →
      List.lookup c (buildGlyphMapFrom start l) = some (start + l.indexOf c) := by
  induction l with
  | nil =>
    intro start c hc
    cases hc
  | cons a t ih =>
    intro start c hc
    by_cases hca : c = a
    · subst hca
      simp [buildGlyphMapFrom, List.lookup, List.indexOf_cons_self]
    · have hct : c ∈ t := by
        rcases List.mem_cons.mp hc with h | h
        · exact absurd h hca
        · exact h
      have hbeq : (c == a) = false := beq_eq_false_iff_ne.mpr hca
      rw [buildGlyphMapFrom, List.lookup, hbeq, ih (start + 1) c hct,
        List.indexOf_cons_ne t (Ne.symm hca)]
      exact congrArg some (by omega)

/-- The key list of the glyph map built from a character list is that list. -/
theorem keys_buildGlyphMapFrom (l : List Char) :
    ∀ start : ℕ, (buildGlyphMapFrom start l).map Prod.fst = l := by
  induction l with
  | nil => intro start; rfl
  | cons a t ih =>
    intro start
    simp [buildGlyphMapFrom, ih (start + 1)]

/-- The `sortChars` output is sorted. -/
theorem sorted_sortChars (l : List Char) : List.Sorted (· ≤ ·) (sortChars l) :=
  List.sorted_insertionSort _ l

/-- The function `sortChars` is invariant under permutation of its input: the
sort result depends only on the multiset of characters, so the arbitrary
`HashMap` key iteration order does not matter. -/
theorem sortChars_eq_of_perm {l₁ l₂ : List Char} (h : l₁.Perm l₂) :
    sortChars l₁ = sortChars l₂ :=
  List.eq_of_perm_of_sorted
    ((List.perm_insertionSort _ l₁).trans (h.trans (List.perm_insertionSort _ l₂).symm))
    (sorted_sortChars l₁) (sorted_sortChars l₂)

/-- Sorting an already-sorted list is the identity. -/
theorem sortChars_of_sorted {l : List Char} (h : List.Sorted (· ≤ ·) l) :
    sortChars l = l :=
  h.insertionSort_eq

/-- Removing consecutive duplicates never loses membership. -/
theorem mem_destutter_ne (t : List Char) :
    ∀ (a c : Char), c ∈ a :: t → c ∈ List.destutter' (· ≠ ·) a t := by
  induction t with
  | nil =>
    intro a c hc
    simpa using hc
  | cons b t ih =>
    intro a c hc
    rw [List.destutter']
    by_cases hab : a ≠ b
    · rw [if_pos hab]
      rcases List.mem_cons.mp hc with rfl | hc'
      · exact List.mem_cons_self _ _
      · exact List.mem_cons_of_mem _ (ih b c hc')
    · rw [if_neg hab]
      push_neg at hab
      subst hab
      rcases List.mem_cons.mp hc with rfl | hc'
      · exact ih c c (List.mem_cons_self _ _)
      · exact ih a c hc'

/-- A sorted list whose consecutive elements are distinct has no duplicates at
all. -/
theorem nodup_of_sorted_chain_ne (l : List Char) (hs : List.Sorted (· ≤ ·) l)
    (hc : l.Chain' (· ≠ ·)) : l.Nodup := by
  induction l with
  | nil => exact List.nodup_nil
  | cons a t ih =>
    rw [List.sorted_cons] at hs
    rw [List.nodup_cons]
    refine ⟨?_, ih hs.2 hc.tail⟩
    intro hmem
    cases t with
    | nil => cases hmem
    | cons b t' =>
      have hab : a ≠ b := (List.chain'_cons.mp hc).1
      have haleb : a ≤ b := hs.1 b (List.mem_cons_self _ _)
      rcases List.mem_cons.mp hmem with h | h
      · exact hab h
      · have hblea : b ≤ a := (List.sorted_cons.mp hs.2).1 a h
        exact hab (le_antisymm haleb hblea)

/-- The `sortDedupChars` output is sorted. -/
theorem sorted_sortDedupChars (l : List Char) :
    List.Sorted (· ≤ ·) (sortDedupChars l) :=
  (sorted_sortChars l).sublist (List.destutter_sublist _ _)

/-- The `sortDedupChars` output has no duplicates. -/
theorem nodup_sortDedupChars (l : List Char) : (sortDedupChars l).Nodup :=
  nodup_of_sorted_chain_ne _ (sorted_sortDedupChars l) (List.destutter_is_chain' _ _)

/-- The function `sortDedupChars` never loses membership. -/
theorem mem_sortDedupChars {l : List Char} {c : Char} (hc : c ∈ l) :
    c ∈ sortDedupChars l := by
  have h1 : c ∈ sortChars l := (List.perm_insertionSort _ l).mem_iff.mpr hc
  unfold sortDedupChars
  cases h : sortChars l with
  | nil =>
    rw [h] at h1
    cases h1
  | cons a t =>
    rw [h] at h1
    rw [List.destutter_cons']
    exact mem_destutter_ne t a c h1

/-- On a sorted duplicate-free list, `sortDedupChars` is the identity. -/
theorem sortDedupChars_of_sorted_nodup {l : List Char}
    (hs : List.Sorted (· ≤ ·) l) (hn : l.Nodup) : sortDedupChars l = l := by
  unfold sortDedupChars
  rw [sortChars_of_sorted hs]
  exact List.destutter_of_chain' _ _ hn.chain'

/-- The function `sortDedupChars` is invariant under permutation of its input. -/
theorem sortDedupChars_eq_of_perm {l₁ l₂ : List Char} (h : l₁.Perm l₂) :
    sortDedupChars l₁ = sortDedupChars l₂ := by
  unfold sortDedupChars
  rw [sortChars_eq_of_perm h]

/-- C8: atlas rebuild idempotence — the glyph map built from a character list
assigns each character the index of its (first) position in that list, and in
particular its position in the sorted, deduplicated character list for the
full pipeline; the rebuild result is independent of the arbitrary order in
which the `HashMap` keys are collected; and rebuilding from the keys of a
rebuild yields the identical glyph map, so two passes over the same character
set agree. -/
theorem atlas_rebuild_idempotent :
    (∀ (chars : List Char) (c : Char), c ∈ chars →
        lookupGlyph (buildGlyphMap chars) c = some (chars.indexOf c)) ∧
    (∀ (cs : List Char) (c : Char), c ∈ cs →
        lookupGlyph (buildGlyphMap (sortDedupChars cs)) c =
          some ((sortDedupChars cs).indexOf c)) ∧
    (∀ k₁ k₂ : List Char, k₁.Perm k₂ → rebuildGlyphMap k₁ = rebuildGlyphMap k₂) ∧
    (∀ keys keys' : List Char,
        keys'.Perm ((rebuildGlyphMap keys).map Prod.fst) →
        rebuildGlyphMap keys' = rebuildGlyphMap keys) := by
  have hbuild : ∀ (chars : List Char) (c : Char), c ∈ chars →
      lookupGlyph (buildGlyphMap chars) c = some (chars.indexOf c) := by
    intro chars c hc
    have := lookup_buildGlyphMapFrom chars 0 c hc
    rwa [Nat.zero_add] at this
  refine ⟨hbuild, ?_, ?_, ?_⟩
  · intro cs c hc
    exact hbuild _ c (mem_sortDedupChars hc)
  · intro k₁ k₂ h
    unfold rebuildGlyphMap
    rw [sortChars_eq_of_perm h]
  · intro keys keys' h
    have hkeys : (rebuildGlyphMap keys).map Prod.fst = sortChars keys :=
      keys_buildGlyphMapFrom _ _
    rw [hkeys] at h
    unfold rebuildGlyphMap
    rw [sortChars_eq_of_perm h, sortChars_of_sorted (sorted_sortChars keys)]

/-- Witness for `atlas_rebuild_idempotent`: index assignment and double
rebuild at a concrete character list. -/
theorem atlas_rebuild_idempotent_witness :
    lookupGlyph (buildGlyphMap ['a', 'b', 'c']) 'b' = some (['a', 'b', 'c'].indexOf 'b') ∧
    rebuildGlyphMap (['c', 'a', 'b']) = rebuildGlyphMap ['b', 'c', 'a'] :=
  ⟨atlas_rebuild_idempotent.1 ['a', 'b', 'c'] 'b' (by decide),
   atlas_rebuild_idempotent.2.2.1 ['c', 'a', 'b'] ['b', 'c', 'a'] (by decide)⟩

/-- Counterexample to C1 as stated: incremental expansion is not
index-preserving.  For the atlas state whose glyph map holds exactly the
character `b` (at tile index 0) and whose pending set holds `a`, the expansion
pass (with both characters renderable) rebuilds from the sorted union
`[a, b]`, relocating `b` from tile index 0 to tile index 1. -/
theorem expand_font_atlas_relocates :
    lookupGlyph (AtlasModel.mk (buildGlyphMap ['b']) ['a']).glyphMap 'b' = some 0 ∧
    lookupGlyph (expand_font_atlas (fun _ => true)
        (AtlasModel.mk (buildGlyphMap ['b']) ['a'])).glyphMap 'b' = some 1 := by
  decide

/-- C1 (amended): the expansion pass preserves the presence of every
previously mapped character but reassigns indices deterministically — the new
glyph map is built from the sorted, deduplicated union of the old keys and the
renderable pending characters, each character receiving the index of its
position in that union (so an existing character keeps its old index only when
no newly added character sorts before it). -/
theorem expand_font_atlas_reindexes_sorted_union :
    ∀ (renderable : Char → Bool) (a : AtlasModel),
      a.pendingGlyphs.isEmpty = false →
      (a.pendingGlyphs.filter renderable).isEmpty = false →
      (expand_font_atlas renderable a).glyphMap =
        buildGlyphMap (sortDedupChars
          (a.glyphMap.map Prod.fst ++ a.pendingGlyphs.filter renderable)) ∧
      ∀ c ∈ a.glyphMap.map Prod.fst,
        lookupGlyph (expand_font_atlas renderable a).glyphMap c =
          some ((sortDedupChars
            (a.glyphMap.map Prod.fst ++ a.pendingGlyphs.filter renderable)).indexOf c) := by
  intro renderable a hpend hnew
  have hmap : (expand_font_atlas renderable a).glyphMap =
      buildGlyphMap (sortDedupChars
        (a.glyphMap.map Prod.fst ++ a.pendingGlyphs.filter renderable)) := by
    simp [expand_font_atlas, hpend, hnew]
  refine ⟨hmap, ?_⟩
  intro c hc
  rw [hmap]
  exact atlas_rebuild_idempotent.1 _ c
    (mem_sortDedupChars (List.mem_append_left _ hc))

/-- Witness for `expand_font_atlas_reindexes_sorted_union` at the concrete
relocating expansion. -/
theorem expand_font_atlas_reindexes_witness :
    (expand_font_atlas (fun _ => true)
        (AtlasModel.mk (buildGlyphMap ['b']) ['a'])).glyphMap =
      buildGlyphMap (sortDedupChars
        ((buildGlyphMap ['b']).map Prod.fst ++ ['a'].filter (fun _ => true))) :=
  (expand_font_atlas_reindexes_sorted_union (fun _ => true)
    (AtlasModel.mk (buildGlyphMap ['b']) ['a']) (by decide) (by decide)).1

/-- Setting a list position to the value it already holds is the identity. -/
theorem set_of_getElem_eq {α : Type} :
    ∀ (l : List α) (n : ℕ) (a : α), l[n]? = some a → l.set n a = l := by
  intro l
  induction l with
  | nil =>
    intro n a h
    cases h
  | cons x t ih =>
    intro n a h
    cases n with
    | zero =>
      simp only [List.getElem?_cons_zero, Option.some_inj] at h
      rw [← h]
      rfl
    | succ n =>
      simp only [List.getElem?_cons_succ] at h
      simp [List.set, ih n a h]

/-- The function `applyAtlasIndex` never touches the non-atlas fields of a cell entity. -/
theorem applyAtlasIndex_preserves (ent : CellEnt) (g : ℕ) :
    (applyAtlasIndex ent g).style = ent.style ∧
    (applyAtlasIndex ent g).bgColor = ent.bgColor ∧
    (applyAtlasIndex ent g).fgColor = ent.fgColor := by
  unfold applyAtlasIndex
  split
  · cases ent.textureAtlas <;> exact ⟨rfl, rfl, rfl⟩
  · exact ⟨rfl, rfl, rfl⟩

/-- Applying `applyAtlasIndex` with the index the entity already holds is the
identity. -/
theorem applyAtlasIndex_of_eq (ent : CellEnt) (g : ℕ)
    (h : ent.textureAtlas = some g) : applyAtlasIndex ent g = ent := by
  unfold applyAtlasIndex
  rw [if_neg]
  intro hne
  exact hne h

/-- Membership in a conditional singleton pins down the element. -/
theorem mem_ite_singleton {α : Type} {w x : α} {b : Prop} [Decidable b]
    (h : w ∈ if b then [x] else []) : w = x := by
  split at h
  · simpa using h
  · cases h

/-- Every mutation signal emitted by the per-cell body carries the position it
was invoked on. -/
theorem processEnt_writes_pos (cfg : SyncConfig) (gm : List (Char × ℕ))
    (si p : ℕ) (bcell : BufferCell) (ent : CellEnt) :
    ∀ w ∈ (processEnt cfg gm si p bcell ent).2.1, w.pos = p := by
  intro w hw
  simp only [processEnt, List.mem_append] at hw
  rcases hw with ((hw | hw) | hw) | hw
  · rw [mem_ite_singleton hw]; rfl
  · rw [mem_ite_singleton hw]; rfl
  · rw [mem_ite_singleton hw]; rfl
  · rw [mem_ite_singleton hw]; rfl

/-- Applying `writeStyle` with an unchanged style is the identity. -/
theorem writeStyle_of_eq {ns : CellStyle} {ent : CellEnt} (h : ent.style = ns) :
    writeStyle ns ent = ent := by
  simp [writeStyle, h]

/-- Applying `writeBg` with an unchanged color is the identity. -/
theorem writeBg_of_eq {bg : Color} {ent : CellEnt} (h : ent.bgColor = bg) :
    writeBg bg ent = ent := by
  simp [writeBg, h]

/-- Applying `writeFg` with an unchanged color is the identity. -/
theorem writeFg_of_eq {fg : Color} {ent : CellEnt} (h : ent.fgColor = fg) :
    writeFg fg ent = ent := by
  simp [writeFg, h]

/-- After `writeFg` the entity holds the given foreground color; the other
fields are untouched. -/
theorem writeFg_fields (fg : Color) (ent : CellEnt) :
    (writeFg fg ent).fgColor = fg ∧ (writeFg fg ent).bgColor = ent.bgColor ∧
    (writeFg fg ent).textureAtlas = ent.textureAtlas := by
  unfold writeFg
  split
  · exact ⟨rfl, rfl, rfl⟩
  · rename_i h
    push_neg at h
    exact ⟨h, rfl, rfl⟩

/-- After `writeBg` the entity holds the given background color; the other
fields are untouched. -/
theorem writeBg_fields (bg : Color) (ent : CellEnt) :
    (writeBg bg ent).bgColor = bg ∧ (writeBg bg ent).fgColor = ent.fgColor ∧
    (writeBg bg ent).textureAtlas = ent.textureAtlas := by
  unfold writeBg
  split
  · exact ⟨rfl, rfl, rfl⟩
  · rename_i h
    push_neg at h
    exact ⟨h, rfl, rfl⟩

/-- The write `writeStyle` leaves the sprite fields untouched. -/
theorem writeStyle_fields (ns : CellStyle) (ent : CellEnt) :
    (writeStyle ns ent).bgColor = ent.bgColor ∧
    (writeStyle ns ent).fgColor = ent.fgColor ∧
    (writeStyle ns ent).textureAtlas = ent.textureAtlas := by
  unfold writeStyle
  split
  · exact ⟨rfl, rfl, rfl⟩
  · exact ⟨rfl, rfl, rfl⟩

/-- On a clean cell — stored style, sprite colors, and tile index all equal to
the values the pass resolves — the per-cell body leaves the entity unchanged
and emits no mutation signal. -/
theorem processEnt_clean (cfg : SyncConfig) (gm : List (Char × ℕ))
    (si p : ℕ) (bcell : BufferCell) (ent : CellEnt)
    (h1 : ent.style = resolveStyle cfg bcell)
    (h2 : ent.bgColor = ratatui_bg_to_bevy bcell.bg cfg.defaultBg)
    (h3 : ent.fgColor = resolveTargetFg cfg bcell)
    (h4 : ent.textureAtlas =
      some (resolveGlyphIndex gm si (headChar bcell.symbol))) :
    (processEnt cfg gm si p bcell ent).1 = ent ∧
    (processEnt cfg gm si p bcell ent).2.1 = [] := by
  constructor
  · simp only [processEnt, writeStyle_of_eq h1, writeBg_of_eq h2, writeFg_of_eq h3]
    exact applyAtlasIndex_of_eq ent _ h4
  · simp [processEnt, writeStyle_of_eq h1, writeBg_of_eq h2, writeFg_of_eq h3,
      h1, h2, h3, h4]

/-- The per-cell body always stores the resolved (dim-adjusted) foreground
sprite color and the resolved background sprite color. -/
theorem processEnt_fg_bg (cfg : SyncConfig) (gm : List (Char × ℕ))
    (si p : ℕ) (bcell : BufferCell) (ent : CellEnt) :
    (processEnt cfg gm si p bcell ent).1.fgColor = resolveTargetFg cfg bcell ∧
    (processEnt cfg gm si p bcell ent).1.bgColor =
      ratatui_bg_to_bevy bcell.bg cfg.defaultBg := by
  simp only [processEnt]
  constructor
  · rw [(applyAtlasIndex_preserves _ _).2.2]
    exact (writeFg_fields _ _).1
  · rw [(applyAtlasIndex_preserves _ _).2.1]
    rw [(writeFg_fields _ _).2.1]
    exact (writeBg_fields _ _).1

/-- The entity position computed from a dirty index is that index again:
`row * columns + col = (idx / columns) * columns + idx % columns = idx`. -/
theorem entity_pos_eq (columns idx : ℕ) :
    idx / columns * columns + idx % columns = idx := by
  rw [Nat.mul_comm]
  exact Nat.div_add_mod idx columns

/-- A dirty index at or beyond the buffer length is skipped without touching
anything. -/
theorem processDirty_oob (cfg : SyncConfig) (buffer : List BufferCell)
    (gm : List (Char × ℕ)) (si : ℕ) (st : PassState) (idx : ℕ)
    (h : buffer.length ≤ idx) :
    processDirty cfg buffer gm si st idx = st := by
  unfold processDirty
  rw [List.getElem?_eq_none h]

/-- Processing one dirty index never touches the cell entity at a different
position. -/
theorem processDirty_cells_ne (cfg : SyncConfig) (buffer : List BufferCell)
    (gm : List (Char × ℕ)) (si : ℕ) (st : PassState) (i j : ℕ) (hij : i ≠ j) :
    (processDirty cfg buffer gm si st i).cells[j]? = st.cells[j]? := by
  cases hb : buffer[i]? with
  | none => simp only [processDirty, hb]
  | some bcell =>
    simp only [processDirty, hb]
    split
    · cases hp : st.cells[i / cfg.columns * cfg.columns + i % cfg.columns]? with
      | none => rfl
      | some ent =>
        have hne : i / cfg.columns * cfg.columns + i % cfg.columns ≠ j := by
          rw [entity_pos_eq]
          exact hij
        exact List.getElem?_set_ne hne
    · rfl

/-- Every mutation signal present after processing one dirty index either was
already there or carries that index as its position. -/
theorem processDirty_writes_mem (cfg : SyncConfig) (buffer : List BufferCell)
    (gm : List (Char × ℕ)) (si : ℕ) (st : PassState) (i : ℕ) :
    ∀ w ∈ (processDirty cfg buffer gm si st i).writes,
      w ∈ st.writes ∨ w.pos = i := by
  intro w hw
  unfold processDirty at hw
  split at hw
  · exact Or.inl hw
  · split at hw
    · split at hw
      · exact Or.inl hw
      · simp only [List.mem_append] at hw
        rcases hw with hw | hw
        · exact Or.inl hw
        · right
          rw [processEnt_writes_pos _ _ _ _ _ _ w hw]
          exact entity_pos_eq cfg.columns i
    · exact Or.inl hw

/-- Processing a dirty index whose cell is already clean leaves that cell
and the signal list unchanged. -/
theorem processDirty_clean (cfg : SyncConfig) (buffer : List BufferCell)
    (gm : List (Char × ℕ)) (si : ℕ) (st : PassState) (idx : ℕ)
    (bcell : BufferCell) (ent : CellEnt)
    (hb : buffer[idx]? = some bcell) (hcell : st.cells[idx]? = some ent)
    (h1 : ent.style = resolveStyle cfg bcell)
    (h2 : ent.bgColor = ratatui_bg_to_bevy bcell.bg cfg.defaultBg)
    (h3 : ent.fgColor = resolveTargetFg cfg bcell)
    (h4 : ent.textureAtlas =
      some (resolveGlyphIndex gm si (headChar bcell.symbol))) :
    (processDirty cfg buffer gm si st idx).cells[idx]? = some ent ∧
    (processDirty cfg buffer gm si st idx).writes = st.writes := by
  simp only [processDirty, hb]
  by_cases hg : idx % cfg.columns < cfg.columns ∧ idx / cfg.columns < cfg.rows
  · rw [if_pos hg, entity_pos_eq, hcell]
    constructor
    · show (st.cells.set idx (processEnt cfg gm si idx bcell ent).1)[idx]? = some ent
      rw [(processEnt_clean cfg gm si idx bcell ent h1 h2 h3 h4).1,
        set_of_getElem_eq st.cells idx ent hcell]
      exact hcell
    · show st.writes ++ (processEnt cfg gm si idx bcell ent).2.1 = st.writes
      rw [(processEnt_clean cfg gm si idx bcell ent h1 h2 h3 h4).2]
      exact List.append_nil _
  · rw [if_neg hg]
    exact ⟨hcell, rfl⟩

/-- Processing an in-bounds dirty index stores the resolved sprite colors in
that cell, whatever they were before. -/
theorem processDirty_fg_bg (cfg : SyncConfig) (buffer : List BufferCell)
    (gm : List (Char × ℕ)) (si : ℕ) (hc : 0 < cfg.columns) (st : PassState)
    (idx : ℕ) (bcell : BufferCell) (e : CellEnt)
    (hb : buffer[idx]? = some bcell) (hrow : idx / cfg.columns < cfg.rows)
    (hcell : st.cells[idx]? = some e) :
    ∃ ent', (processDirty cfg buffer gm si st idx).cells[idx]? = some ent' ∧
      ent'.fgColor = resolveTargetFg cfg bcell ∧
      ent'.bgColor = ratatui_bg_to_bevy bcell.bg cfg.defaultBg := by
  have hcol : idx % cfg.columns < cfg.columns := Nat.mod_lt _ hc
  have hlt : idx < st.cells.length := (List.getElem?_eq_some.mp hcell).1
  simp only [processDirty, hb]
  rw [if_pos ⟨hcol, hrow⟩, entity_pos_eq, hcell]
  refine ⟨(processEnt cfg gm si idx bcell e).1, ?_,
    (processEnt_fg_bg cfg gm si idx bcell e).1,
    (processEnt_fg_bg cfg gm si idx bcell e).2⟩
  show (st.cells.set idx (processEnt cfg gm si idx bcell e).1)[idx]? =
    some (processEnt cfg gm si idx bcell e).1
  exact List.getElem?_set_eq_of_lt _ hlt

/-- Folding the dirty loop over indices that avoid a given position leaves
that position's cell untouched. -/
theorem foldl_processDirty_cells_ne (cfg : SyncConfig) (buffer : List BufferCell)
    (gm : List (Char × ℕ)) (si : ℕ) (idx : ℕ) :
    ∀ idxs : List ℕ, idx ∉ idxs → ∀ st : PassState,
      (idxs.foldl (processDirty cfg buffer gm si) st).cells[idx]? =
        st.cells[idx]? := by
  intro idxs
  induction idxs with
  | nil =>
    intro _ st
    rfl
  | cons j t ih =>
    intro hmem st
    rw [List.foldl_cons, ih fun h => hmem (List.mem_cons_of_mem _ h)]
    exact processDirty_cells_ne cfg buffer gm si st j idx
      fun h => hmem (h ▸ List.mem_cons_self _ _)

/-- Folding the dirty loop preserves both a clean cell and the absence of
mutation signals for its position. -/
theorem foldl_processDirty_clean (cfg : SyncConfig) (buffer : List BufferCell)
    (gm : List (Char × ℕ)) (si : ℕ) (idx : ℕ) (bcell : BufferCell)
    (ent : CellEnt) (hb : buffer[idx]? = some bcell)
    (h1 : ent.style = resolveStyle cfg bcell)
    (h2 : ent.bgColor = ratatui_bg_to_bevy bcell.bg cfg.defaultBg)
    (h3 : ent.fgColor = resolveTargetFg cfg bcell)
    (h4 : ent.textureAtlas =
      some (resolveGlyphIndex gm si (headChar bcell.symbol))) :
    ∀ (idxs : List ℕ) (st : PassState),
      st.cells[idx]? = some ent → (∀ w ∈ st.writes, w.pos ≠ idx) →
      (idxs.foldl (processDirty cfg buffer gm si) st).cells[idx]? = some ent ∧
      ∀ w ∈ (idxs.foldl (processDirty cfg buffer gm si) st).writes,
        w.pos ≠ idx := by
  intro idxs
  induction idxs with
  | nil =>
    intro st hcells hwr
    exact ⟨hcells, hwr⟩
  | cons j t ih =>
    intro st hcells hwr
    rw [List.foldl_cons]
    by_cases hji : j = idx
    · subst hji
      obtain ⟨hk1, hk2⟩ :=
        processDirty_clean cfg buffer gm si st j bcell ent hb hcells h1 h2 h3 h4
      refine ih _ hk1 ?_
      rw [hk2]
      exact hwr
    · refine ih _ ?_ ?_
      · rw [processDirty_cells_ne cfg buffer gm si st j idx hji]
        exact hcells
      · intro w hw
        rcases processDirty_writes_mem cfg buffer gm si st j w hw with h | h
        · exact hwr w h
        · rw [h]
          exact hji

/-- Characterization of the enumerate-and-filter dirty-index collection with
an arbitrary starting offset. -/
theorem mem_dirtyIndicesFrom (l : List Bool) :
    ∀ n i : ℕ,
      i ∈ (List.enumFrom n l).filterMap dirtyIndexSelector ↔
        ∃ k, l[k]? = some true ∧ i = n + k := by
  induction l with
  | nil =>
    intro n i
    simp
  | cons b t ih =>
    intro n i
    cases b with
    | true =>
      rw [show List.enumFrom n (true :: t) = (n, true) :: List.enumFrom (n + 1) t
        from rfl]
      rw [List.filterMap_cons_some
        (show dirtyIndexSelector (n, true) = some n from rfl)]
      constructor
      · intro h
        rcases List.mem_cons.mp h with rfl | hmem
        · exact ⟨0, by simp, by omega⟩
        · obtain ⟨k, hk, rfl⟩ := (ih (n + 1) i).mp hmem
          exact ⟨k + 1, by simpa using hk, by omega⟩
      · rintro ⟨k, hk, rfl⟩
        cases k with
        | zero => exact List.mem_cons_self _ _
        | succ k =>
          refine List.mem_cons_of_mem _ ((ih (n + 1) (n + (k + 1))).mpr ?_)
          exact ⟨k, by simpa using hk, by omega⟩
    | false =>
      rw [show List.enumFrom n (false :: t) = (n, false) :: List.enumFrom (n + 1) t
        from rfl]
      rw [List.filterMap_cons_none
        (show dirtyIndexSelector (n, false) = none from rfl)]
      constructor
      · intro h
        obtain ⟨k, hk, rfl⟩ := (ih (n + 1) i).mp h
        exact ⟨k + 1, by simpa using hk, by omega⟩
      · rintro ⟨k, hk, rfl⟩
        cases k with
        | zero => simp at hk
        | succ k =>
          refine (ih (n + 1) (n + (k + 1))).mpr ?_
          exact ⟨k, by simpa using hk, by omega⟩

/-- A dirty index is collected exactly when its dirty bit is set. -/
theorem mem_dirtyIndices (dirty : List Bool) (i : ℕ) :
    i ∈ dirtyIndices dirty ↔ dirty[i]? = some true := by
  unfold dirtyIndices
  rw [show dirty.enum = List.enumFrom 0 dirty from rfl,
    mem_dirtyIndicesFrom dirty 0 i]
  constructor
  · rintro ⟨k, hk, rfl⟩
    simpa using hk
  · intro h
    exact ⟨i, h, by omega⟩

/-- The collected dirty-index list has no duplicates. -/
theorem nodup_dirtyIndices (dirty : List Bool) : (dirtyIndices dirty).Nodup := by
  suffices h : ∀ (l : List Bool) (n : ℕ),
      ((List.enumFrom n l).filterMap dirtyIndexSelector).Nodup by
    exact h dirty 0
  intro l
  induction l with
  | nil =>
    intro n
    simp
  | cons b t ih =>
    intro n
    cases b with
    | true =>
      rw [show List.enumFrom n (true :: t) = (n, true) :: List.enumFrom (n + 1) t
        from rfl]
      rw [List.filterMap_cons_some
        (show dirtyIndexSelector (n, true) = some n from rfl)]
      rw [List.nodup_cons]
      refine ⟨?_, ih (n + 1)⟩
      intro hmem
      obtain ⟨k, -, hk⟩ := (mem_dirtyIndicesFrom t (n + 1) n).mp hmem
      omega
    | false =>
      rw [show List.enumFrom n (false :: t) = (n, false) :: List.enumFrom (n + 1) t
        from rfl]
      rw [List.filterMap_cons_none
        (show dirtyIndexSelector (n, false) = none from rfl)]
      exact ih (n + 1)

/-- C5: diff-sync no-op skip — when the backend generation equals the
last-synced generation, the sync pass returns the world unchanged and emits no
mutation signal (no cell style, sprite, dirty-flag, pending-glyph, or
`SyncGeneration` write); consequently, running the pass twice in a row always
makes the second run a no-op with zero writes. -/
theorem sync_noop_skip :
    (∀ (cfg : SyncConfig) (w : SyncWorld), w.generation = w.syncGen →
        sync_buffer_to_entities cfg w = (w, [])) ∧
    (∀ (cfg : SyncConfig) (w : SyncWorld),
        sync_buffer_to_entities cfg (sync_buffer_to_entities cfg w).1 =
          ((sync_buffer_to_entities cfg w).1, [])) := by
  have h1 : ∀ (cfg : SyncConfig) (w : SyncWorld), w.generation = w.syncGen →
      sync_buffer_to_entities cfg w = (w, []) := by
    intro cfg w h
    simp [sync_buffer_to_entities, h]
  refine ⟨h1, ?_⟩
  intro cfg w
  apply h1
  by_cases h : w.generation = w.syncGen
  · rw [h1 cfg w h]
    exact h
  · simp [sync_buffer_to_entities, h]

/-- Witness for `sync_noop_skip`: the skip clause at a concrete world whose
generation already matches. -/
theorem sync_noop_skip_witness :
    sync_buffer_to_entities ⟨1, 1, Color.white, Color.white⟩
        ⟨7, 7, [true], [⟨" ", RatColor.reset, RatColor.reset, ⟨false, false, false, false⟩⟩],
          [(' ', 0)], [], [⟨⟨Color.white, Color.white, false, false, false, false, " "⟩,
            Color.white, Color.white, some 0⟩]⟩ =
      (⟨7, 7, [true], [⟨" ", RatColor.reset, RatColor.reset, ⟨false, false, false, false⟩⟩],
          [(' ', 0)], [], [⟨⟨Color.white, Color.white, false, false, false, false, " "⟩,
            Color.white, Color.white, some 0⟩]⟩, []) :=
  sync_noop_skip.1 ⟨1, 1, Color.white, Color.white⟩ _ rfl

/-- C9: out-of-range dirty indices are skipped defensively — a dirty index at
or beyond the buffer length leaves the pass state untouched (no buffer read,
no cell mutation, no abort), and the dirty loop over any index list equals the
loop over only its in-range indices, so the remaining dirty cells are
processed normally. -/
theorem sync_oob_dirty_skipped :
    (∀ (cfg : SyncConfig) (buffer : List BufferCell) (gm : List (Char × ℕ))
        (si : ℕ) (st : PassState) (idx : ℕ), buffer.length ≤ idx →
        processDirty cfg buffer gm si st idx = st) ∧
    (∀ (cfg : SyncConfig) (buffer : List BufferCell) (gm : List (Char × ℕ))
        (si : ℕ) (idxs : List ℕ) (st : PassState),
        idxs.foldl (processDirty cfg buffer gm si) st =
          (idxs.filter fun i => decide (i < buffer.length)).foldl
            (processDirty cfg buffer gm si) st) := by
  refine ⟨fun cfg buffer gm si st idx h => processDirty_oob cfg buffer gm si st idx h, ?_⟩
  intro cfg buffer gm si idxs
  induction idxs with
  | nil =>
    intro st
    rfl
  | cons j t ih =>
    intro st
    by_cases h : j < buffer.length
    · rw [List.foldl_cons, ih, List.filter_cons_of_pos (by simpa using h),
        List.foldl_cons]
    · rw [List.foldl_cons,
        processDirty_oob cfg buffer gm si st j (Nat.le_of_not_lt h), ih,
        List.filter_cons_of_neg (by simpa using h)]

/-- Witness for `sync_oob_dirty_skipped`: a dirty index one past the end of a
concrete one-cell buffer is a no-op. -/
theorem sync_oob_dirty_skipped_witness :
    processDirty ⟨1, 1, Color.white, Color.white⟩
        [⟨"x", RatColor.reset, RatColor.reset, ⟨false, false, false, false⟩⟩]
        [(' ', 0)] 0 ⟨[], [], []⟩ 1 = ⟨[], [], []⟩ :=
  sync_oob_dirty_skipped.1 ⟨1, 1, Color.white, Color.white⟩
    [⟨"x", RatColor.reset, RatColor.reset, ⟨false, false, false, false⟩⟩]
    [(' ', 0)] 0 ⟨[], [], []⟩ 1 (by decide)

/-- C6: compare-before-write — for any cell whose stored `CellStyle`,
background sprite color, foreground sprite color, and glyph-tile index all
already equal the values the pass resolves for its buffer cell (the
foreground sprite color being the dim-adjusted resolved foreground), the sync
pass leaves that cell's components untouched and emits no mutation signal for
it, whatever the dirty set is. -/
theorem sync_compare_before_write :
    ∀ (cfg : SyncConfig) (w : SyncWorld) (idx : ℕ) (bcell : BufferCell)
      (ent : CellEnt),
      w.buffer[idx]? = some bcell →
      w.cells[idx]? = some ent →
      ent.style = resolveStyle cfg bcell →
      ent.bgColor = ratatui_bg_to_bevy bcell.bg cfg.defaultBg →
      ent.fgColor = resolveTargetFg cfg bcell →
      ent.textureAtlas = some (resolveGlyphIndex w.glyphMap
        ((lookupGlyph w.glyphMap ' ').getD 0) (headChar bcell.symbol)) →
      (sync_buffer_to_entities cfg w).1.cells[idx]? = some ent ∧
      ∀ wr ∈ (sync_buffer_to_entities cfg w).2, wr.pos ≠ idx := by
  intro cfg w idx bcell ent hb hcell h1 h2 h3 h4
  by_cases hgen : w.generation = w.syncGen
  · constructor
    · simp only [sync_buffer_to_entities, if_pos hgen]
      exact hcell
    · simp only [sync_buffer_to_entities, if_pos hgen]
      intro wr hw
      cases hw
  · constructor
    · simp only [sync_buffer_to_entities, if_neg hgen]
      exact (foldl_processDirty_clean cfg w.buffer w.glyphMap
        ((lookupGlyph w.glyphMap ' ').getD 0) idx bcell ent hb h1 h2 h3 h4
        (dirtyIndices w.dirty) ⟨w.cells, [], []⟩ hcell
        fun wr hw => absurd hw (List.not_mem_nil wr)).1
    · simp only [sync_buffer_to_entities, if_neg hgen]
      exact (foldl_processDirty_clean cfg w.buffer w.glyphMap
        ((lookupGlyph w.glyphMap ' ').getD 0) idx bcell ent hb h1 h2 h3 h4
        (dirtyIndices w.dirty) ⟨w.cells, [], []⟩ hcell
        fun wr hw => absurd hw (List.not_mem_nil wr)).2

/-- Witness for `sync_compare_before_write`: a one-cell world whose only cell
is dirty but already holds all resolved values, so the pass emits no signal
for it. -/
theorem sync_compare_before_write_witness :
    (sync_buffer_to_entities ⟨1, 1, Color.white, Color.white⟩
        ⟨1, 0, [true], [⟨"x", RatColor.reset, RatColor.reset,
            ⟨false, false, false, false⟩⟩],
          [('x', 1), (' ', 0)], [],
          [⟨⟨Color.white, Color.white, false, false, false, false, "x"⟩,
            Color.white, Color.white, some 1⟩]⟩).1.cells[0]? =
      some ⟨⟨Color.white, Color.white, false, false, false, false, "x"⟩,
        Color.white, Color.white, some 1⟩ ∧
    ∀ wr ∈ (sync_buffer_to_entities ⟨1, 1, Color.white, Color.white⟩
        ⟨1, 0, [true], [⟨"x", RatColor.reset, RatColor.reset,
            ⟨false, false, false, false⟩⟩],
          [('x', 1), (' ', 0)], [],
          [⟨⟨Color.white, Color.white, false, false, false, false, "x"⟩,
            Color.white, Color.white, some 1⟩]⟩).2, wr.pos ≠ 0 :=
  sync_compare_before_write ⟨1, 1, Color.white, Color.white⟩
    ⟨1, 0, [true], [⟨"x", RatColor.reset, RatColor.reset,
        ⟨false, false, false, false⟩⟩],
      [('x', 1), (' ', 0)], [],
      [⟨⟨Color.white, Color.white, false, false, false, false, "x"⟩,
        Color.white, Color.white, some 1⟩]⟩ 0
    ⟨"x", RatColor.reset, RatColor.reset, ⟨false, false, false, false⟩⟩
    ⟨⟨Color.white, Color.white, false, false, false, false, "x"⟩,
      Color.white, Color.white, some 1⟩
    (by decide) (by decide) (by decide) (by decide) (by decide) (by decide)

/-- C10: dim-style color policy — for every dirty in-bounds cell the sync
pass stores as foreground sprite color the resolved foreground with its alpha
replaced by the absolute constant 1/2 when the DIM modifier is set (so the
resulting alpha is exactly 1/2 whatever the resolved color's alpha was, not
1/2 times it), and the resolved foreground unchanged when DIM is clear; the
background sprite color is the resolved background in both cases, unaffected
by DIM. -/
theorem sync_dim_alpha_policy :
    ∀ (cfg : SyncConfig) (w : SyncWorld) (idx : ℕ) (bcell : BufferCell)
      (e : CellEnt),
      0 < cfg.columns →
      w.generation ≠ w.syncGen →
      w.dirty[idx]? = some true →
      w.buffer[idx]? = some bcell →
      idx / cfg.columns < cfg.rows →
      w.cells[idx]? = some e →
      ∃ ent', (sync_buffer_to_entities cfg w).1.cells[idx]? = some ent' ∧
        ent'.fgColor = (if bcell.modifier.dim then
            (ratatui_fg_to_bevy bcell.fg cfg.defaultFg).withAlpha (1/2)
          else ratatui_fg_to_bevy bcell.fg cfg.defaultFg) ∧
        (bcell.modifier.dim = true → ent'.fgColor.a = 1/2) ∧
        ent'.bgColor = ratatui_bg_to_bevy bcell.bg cfg.defaultBg := by
  intro cfg w idx bcell e hc hgen hdirty hb hrow hcell
  have hmem : idx ∈ dirtyIndices w.dirty := (mem_dirtyIndices _ _).mpr hdirty
  obtain ⟨s, t, hsplit⟩ := List.append_of_mem hmem
  have hnodup := nodup_dirtyIndices w.dirty
  rw [hsplit] at hnodup
  have hnotmem : idx ∉ s ∧ idx ∉ t := by
    rw [List.nodup_middle, List.nodup_cons] at hnodup
    simp only [List.mem_append] at hnodup
    exact ⟨fun hm => hnodup.1 (Or.inl hm), fun hm => hnodup.1 (Or.inr hm)⟩
  have hstart : (PassState.mk w.cells [] []).cells[idx]? = some e := hcell
  have hs1 : ((s.foldl (processDirty cfg w.buffer w.glyphMap
      ((lookupGlyph w.glyphMap ' ').getD 0)) ⟨w.cells, [], []⟩)).cells[idx]? =
      some e := by
    rw [foldl_processDirty_cells_ne cfg w.buffer w.glyphMap
      ((lookupGlyph w.glyphMap ' ').getD 0) idx s hnotmem.1 ⟨w.cells, [], []⟩]
    exact hstart
  obtain ⟨ent', he', hfg, hbg⟩ := processDirty_fg_bg cfg w.buffer w.glyphMap
    ((lookupGlyph w.glyphMap ' ').getD 0) hc _ idx bcell e hb hrow hs1
  refine ⟨ent', ?_, ?_, ?_, hbg⟩
  · simp only [sync_buffer_to_entities, if_neg hgen]
    rw [hsplit, List.foldl_append, List.foldl_cons]
    rw [foldl_processDirty_cells_ne cfg w.buffer w.glyphMap
      ((lookupGlyph w.glyphMap ' ').getD 0) idx t hnotmem.2 _]
    exact he'
  · rw [hfg]
    simp only [resolveTargetFg]
  · intro hdim
    rw [hfg]
    simp [resolveTargetFg, hdim, Color.withAlpha]

/-- Witness for `sync_dim_alpha_policy`: a dirty dim cell whose resolved
foreground (the `Reset` default) has alpha 3/10, yet the stored sprite alpha
comes out as the absolute 1/2. -/
theorem sync_dim_alpha_policy_witness :
    ∃ ent', (sync_buffer_to_entities ⟨1, 1, ⟨9/10, 9/10, 9/10, 3/10⟩, Color.white⟩
        ⟨1, 0, [true], [⟨"x", RatColor.reset, RatColor.red,
            ⟨false, false, false, true⟩⟩],
          [('x', 1), (' ', 0)], [],
          [⟨⟨Color.white, Color.white, false, false, false, false, " "⟩,
            Color.white, Color.white, some 0⟩]⟩).1.cells[0]? = some ent' ∧
      ent'.fgColor = (if (StyleModifier.mk false false false true).dim then
          (ratatui_fg_to_bevy RatColor.reset ⟨9/10, 9/10, 9/10, 3/10⟩).withAlpha (1/2)
        else ratatui_fg_to_bevy RatColor.reset ⟨9/10, 9/10, 9/10, 3/10⟩) ∧
      ((StyleModifier.mk false false false true).dim = true →
        ent'.fgColor.a = 1/2) ∧
      ent'.bgColor = ratatui_bg_to_bevy RatColor.red Color.white :=
  sync_dim_alpha_policy ⟨1, 1, ⟨9/10, 9/10, 9/10, 3/10⟩, Color.white⟩
    ⟨1, 0, [true], [⟨"x", RatColor.reset, RatColor.red,
        ⟨false, false, false, true⟩⟩],
      [('x', 1), (' ', 0)], [],
      [⟨⟨Color.white, Color.white, false, false, false, false, " "⟩,
        Color.white, Color.white, some 0⟩]⟩ 0
    ⟨"x", RatColor.reset, RatColor.red, ⟨false, false, false, true⟩⟩
    ⟨⟨Color.white, Color.white, false, false, false, false, " "⟩,
      Color.white, Color.white, some 0⟩
    (by decide) (by decide) (by decide) (by decide) (by decide) (by decide)

end BevyTermEmu
